import Mathlib

/-!
Verification development for `RSA_in_plain_python`.

This file is a shallow embedding of `src/RSA.py` (the key generator
`keyGen` with its helpers `IsPrime`, `millerTest`, `getBigPrime`,
`eea`, the byte/base64 text framing helpers, and the encrypt/decrypt
transform `pow(m, e, n)`), together with the relevant line of the
walkthrough script `src/RSAmaths.py`.

Modelling conventions:
* Python arbitrary-precision non-negative integers are `Nat`; the
  extended-Euclid coefficients, which can go negative, are `Int`.
  Python's `%` on a positive modulus agrees with `Nat.mod` and with
  `Int.emod`.
* Randomness is explicit: the bytes returned by `os.urandom` are a
  `List Nat` argument, and the Miller-Rabin witness draws
  `a = 2 + randBelow(n - 4)` (which land in `[2, n-2]`) are given by
  witness lists / oracles `Nat → List Nat`.
* The unbounded `while` search loops (`getBigPrime`'s prime hunt and
  `keyGen`'s `e` search) take a fuel argument and return an `Option`;
  a `some` result corresponds exactly to a terminating run of the
  Python loop.  Loops whose iteration count is bounded by an argument
  (`eea`, the odd-part stripping, base-10 digit count) are given that
  bound as structural fuel, which the supplied value never exhausts.
* Python's three-argument `pow(a, b, n)` is fast binary modular
  exponentiation; it is modelled by `powMod`, and `powMod_eq` proves
  `powMod a b n = a ^ b % n`.
-/

/-- bitLen (RSA.py line 68): `len(bin(n)) - 2`, the number of binary
digits of `n` (1 for `n = 0`, matching `bin(0) = "0b0"`).  Structural
fuel recursion; fuel `n` is never exhausted. -/
def bitLenGo : Nat → Nat → Nat
  | 0, _ => 1
  | f+1, n => if n < 2 then 1 else bitLenGo f (n / 2) + 1

/-- bitLen (RSA.py line 68), wrapper supplying the fuel. -/
def bitLen (n : Nat) : Nat := bitLenGo n n

/-- hexDigits: the number of hexadecimal digits of `n`, so that
`len(hex(n)) = hexDigits n + 2` (Python's `hex` prefixes `0x`). -/
def hexDigitsGo : Nat → Nat → Nat
  | 0, _ => 1
  | f+1, n => if n < 16 then 1 else hexDigitsGo f (n / 16) + 1

/-- hexDigits wrapper supplying the fuel. -/
def hexDigits (n : Nat) : Nat := hexDigitsGo n n

/-- bytLen (RSA.py line 71): `(len(hex(n)) - 1) // 2`, i.e.
`(hexDigits n + 1) / 2`, the byte count used by `bigInt2Bytes`. -/
def bytLen (n : Nat) : Nat := (hexDigits n + 1) / 2

/-- int.from_bytes(bs, 'big'): big-endian byte-list to integer. -/
def fromBytesBE (bs : List Nat) : Nat :=
  bs.foldl (fun acc b => acc * 256 + b) 0

/-- Helper for int.to_bytes: the big-endian byte list of `n` padded or
truncated to exactly `k` bytes (truncation never happens at the call
site because the overflow check in `bigInt2Bytes` rules it out). -/
def toBytesGo : Nat → Nat → List Nat
  | 0, _ => []
  | k+1, n => toBytesGo k (n / 256) ++ [n % 256]

/-- bigInt2Bytes (RSA.py line 75): `bigI.to_bytes(bytLen(bigI), 'big')`.
Python's `to_bytes` raises `OverflowError` when the value does not fit
in the requested length; that failure is modelled as `none`. -/
def bigInt2Bytes (n : Nat) : Option (List Nat) :=
  if n < 256 ^ bytLen n then some (toBytesGo (bytLen n) n) else none

/-- standard base64 alphabet used by Python's `base64.b64encode`. -/
def b64Alpha : List Char :=
  "ABCDEFGHIJKLMNOPQRSTUVWXYZabcdefghijklmnopqrstuvwxyz0123456789+/".toList

/-- base64 character for a 6-bit value. -/
def b64chr (i : Nat) : Char := b64Alpha.getD i '='

/-- index of a base64 character in the alphabet. -/
def b64idx (c : Char) : Nat := b64Alpha.indexOf c

/-- base64 encoding of a byte list (RFC 4648, as implemented by
Python's `base64.b64encode`): groups of three bytes become four
alphabet characters; a trailing group of one or two bytes is padded
with `=`. -/
def b64e : List Nat → List Char
  | [] => []
  | [a] => [b64chr (a / 4), b64chr (a % 4 * 16), '=', '=']
  | [a, b] => [b64chr (a / 4), b64chr (a % 4 * 16 + b / 16), b64chr (b % 16 * 4), '=']
  | a :: b :: c :: t =>
    b64chr (a / 4) :: b64chr (a % 4 * 16 + b / 16) ::
      b64chr (b % 16 * 4 + c / 64) :: b64chr (c % 64) :: b64e t

/-- base64 decoding of a (validly padded) character list, as performed
by Python's `base64.b64decode` on the output of `b64encode`. -/
def b64d : List Char → List Nat
  | c1 :: c2 :: c3 :: c4 :: t =>
    if c3 = '=' then [b64idx c1 * 4 + b64idx c2 / 16]
    else if c4 = '=' then
      [b64idx c1 * 4 + b64idx c2 / 16, b64idx c2 % 16 * 16 + b64idx c3 / 4]
    else
      (b64idx c1 * 4 + b64idx c2 / 16) :: (b64idx c2 % 16 * 16 + b64idx c3 / 4) ::
        (b64idx c3 % 4 * 64 + b64idx c4) :: b64d t
  | _ => []

/-- bigInt2B64 (RSA.py line 79): base64-encode the big-endian bytes of
a non-negative integer (`none` if `to_bytes` would overflow). -/
def bigInt2B64 (n : Nat) : Option (List Char) :=
  (bigInt2Bytes n).map b64e

/-- B642bigInt (RSA.py line 83): decode a base64 string back to a
non-negative integer. -/
def B642bigInt (s : List Char) : Nat := fromBytesBE (b64d s)

/-- Python's three-argument `pow(a, b, n)` (binary modular
exponentiation), structural fuel recursion on the exponent; the
wrapper `powMod` supplies fuel `b`, which is never exhausted since the
exponent at least halves each step. -/
def powModGo : Nat → Nat → Nat → Nat → Nat
  | 0, _, _, n => 1 % n
  | f+1, a, b, n =>
    if b = 0 then 1 % n
    else
      let h := powModGo f (a * a % n) (b / 2) n
      if b % 2 = 1 then h * (a % n) % n else h

/-- Python's `pow(a, b, n)` (used for encryption and decryption in
RSA.py lines 213 and 232, and inside `millerTest` line 110). -/
def powMod (a b n : Nat) : Nat := powModGo b a b n

/-- digits10: `len(str(n))`, the number of decimal digits of `n`. -/
def digits10Go : Nat → Nat → Nat
  | 0, _ => 1
  | f+1, n => if n < 10 then 1 else digits10Go f (n / 10) + 1

/-- digits10 wrapper supplying the fuel. -/
def digits10 (n : Nat) : Nat := digits10Go n n

/-- oddPart: the loop `while d % 2 == 0: d //= 2` of `IsPrime`
(RSA.py line 123), run on `d = n - 1` with `n` odd and `n > 3`, so the
fuel `d` is ample and `d = 0` never occurs at the call site. -/
def oddPartGo : Nat → Nat → Nat
  | 0, d => d
  | f+1, d => if d % 2 = 0 then oddPartGo f (d / 2) else d

/-- oddPart wrapper supplying the fuel. -/
def oddPart (d : Nat) : Nat := oddPartGo d d

/-- twoVal: the number of iterations of that same stripping loop,
i.e. the 2-adic valuation of `d` (for `d ≠ 0`). -/
def twoValGo : Nat → Nat → Nat
  | 0, _ => 0
  | f+1, d => if d % 2 = 0 then twoValGo f (d / 2) + 1 else 0

/-- twoVal wrapper supplying the fuel. -/
def twoVal (d : Nat) : Nat := twoValGo d d

/-- The squaring loop of `millerTest` (RSA.py lines 112-116):
`while d != n-1: x = x*x % n; d *= 2; if x == 1: return False;
if x == n-1: return True` and `return False` on exit.  In `IsPrime`
the loop is entered with `d` the odd part of `n - 1`, so `d` doubles
to exactly `n - 1` after `twoVal (n - 1)` iterations; that count is
the structural argument here and fuel 0 is the `d == n-1` loop exit
(returning `False`). -/
def millerLoop (n : Nat) : Nat → Nat → Bool
  | _, 0 => false
  | x, s+1 =>
    let x2 := x * x % n
    if x2 = 1 then false
    else if x2 = n - 1 then true
    else millerLoop n x2 s

/-- millerTest (RSA.py lines 108-117) with the random witness
`a = 2 + randBelow(n - 4)` made an explicit argument:
`x = pow(a, d, n); if x == 1 or x == n-1: return True` then the
squaring loop. -/
def millerTest (a d n : Nat) : Bool :=
  let x := powMod a d n
  if x = 1 ∨ x = n - 1 then true
  else millerLoop n x (twoVal (n - 1))

/-- kRounds (RSA.py line 119): `k = min(int(len(str(n))/5)+4, 64)`,
the number of Miller-Rabin rounds. -/
def kRounds (n : Nat) : Nat := min (digits10 n / 5 + 4) 64

/-- IsPrime (RSA.py lines 106-126) with the witness draws made an
explicit list `ws` (the real code draws exactly `kRounds n` witnesses;
theorems therefore hypothesise `ws.length = kRounds n`, or only
bounds on the listed values where the length is irrelevant):
`if n <= 3: return n > 1`, `if n & 1 == 0: return False`, strip the
odd part of `n - 1`, then all `k` rounds must pass. -/
def IsPrime (n : Nat) (ws : List Nat) : Bool :=
  if n ≤ 3 then decide (1 < n)
  else if n % 2 = 0 then false
  else (ws.take (kRounds n)).all fun a => millerTest a (oddPart (n - 1)) n

/-- The prime hunt of `getBigPrime` (RSA.py line 131):
`while not IsPrime(n): n += 2`, with fuel for the unbounded loop and
a witness oracle giving the draws used when testing each candidate. -/
def primeSearch (wss : Nat → List Nat) : Nat → Nat → Option Nat
  | 0, _ => none
  | fuel+1, n => if IsPrime n (wss n) then some n else primeSearch wss fuel (n + 2)

/-- The starting candidate of getBigPrime (RSA.py line 130):
`n = int.from_bytes(randBytes(nBits//8), 'big') | 1` — the OS random
stream is `rnd`, of which `nBits // 8` bytes are consumed. -/
def getBigPrimeStart (nBits : Nat) (rnd : List Nat) : Nat :=
  fromBytesBE (rnd.take (nBits / 8)) ||| 1

/-- getBigPrime (RSA.py lines 129-132). -/
def getBigPrime (nBits : Nat) (rnd : List Nat) (wss : Nat → List Nat)
    (fuel : Nat) : Option Nat :=
  primeSearch wss fuel (getBigPrimeStart nBits rnd)

/-- The `while b > 0` loop of eea (RSA.py lines 139-145), carrying the
two live coefficient pairs `cd[0]`, `cd[1]` (`cd[2]` is the freshly
computed pair that shifts in).  `b` strictly decreases, so the fuel
`u + 1` supplied by `eea` is never exhausted. -/
def eeaGo : Nat → Nat → Nat → (Int × Int) → (Int × Int) → Nat × (Int × Int)
  | 0, a, _, cd0, _ => (a, cd0)
  | fuel+1, a, b, cd0, cd1 =>
    if b = 0 then (a, cd0)
    else
      let q : Int := (a / b : Nat)
      eeaGo fuel b (a % b) cd1 (cd0.1 - q * cd1.1, cd0.2 - q * cd1.2)

/-- eea (RSA.py lines 138-147): extended Euclidean algorithm;
`if a != 1: return None` else `return cd[0][0] % u` (Python's `%` on a
possibly negative left operand and positive `u` is `Int.emod`). -/
def eea (e u : Nat) : Option Int :=
  let r := eeaGo (u + 1) e u (1, 0) (0, 1)
  if r.1 ≠ 1 then none else some (r.2.1 % (u : Int))

/-- KEY_SIZE (RSA.py line 59): the module-level global. -/
def KEY_SIZE : Nat := 1024

/-- The public-exponent search of keyGen (RSA.py line 176):
`e = 65537; while (u % e == 0) or (not IsPrime(e)): e += 2`, with fuel
for the unbounded loop.  Like Python's short-circuiting `or`, the
witness oracle is only consulted when `u % e != 0`. -/
def eLoop (u : Nat) (wse : Nat → List Nat) : Nat → Nat → Option Nat
  | 0, _ => none
  | fuel+1, e =>
    if u % e == 0 || !(IsPrime e (wse e)) then eLoop u wse fuel (e + 2) else some e

/-- keyGen after the two primes have been found (RSA.py lines
159-186): `n = p*q`, `u = (p-1)*(q-1)`, the `e` search, then
`d = eea(e, u)` and `return (n, e, d)` — with no retry on `d = None`. -/
def keyGenTail (p q : Nat) (wse : Nat → List Nat) (fe : Nat) :
    Option (Nat × Nat × Option Int) :=
  let n := p * q
  let u := (p - 1) * (q - 1)
  match eLoop u wse fe 65537 with
  | some e => some (n, e, eea e u)
  | none => none

/-- keyGen (RSA.py lines 96-186).  Note the faithful bug: the
`keySize` parameter is unused — lines 153-154 call
`getBigPrime((KEY_SIZE//2)+1)` and `getBigPrime((KEY_SIZE//2)-1)` on
the module-level global `KEY_SIZE`, not on the argument. -/
def keyGen (keySize : Nat) (rp rq : List Nat) (wsp wsq wse : Nat → List Nat)
    (fp fq fe : Nat) : Option (Nat × Nat × Option Int) :=
  match getBigPrime (KEY_SIZE / 2 + 1) rp wsp fp,
        getBigPrime (KEY_SIZE / 2 - 1) rq wsq fq with
  | some p, some q => keyGenTail p q wse fe
  | _, _ => none

/-- RSAmaths.py line 141: `message = 233*5`. -/
def RSAmathsMessage : Nat := 233 * 5

/-- RSAmaths.py line 142: `cypher = message**e % (p*q)` with
`p, q, e = 97, 233, 17` (line 140) — naive exponentiation then one
modulus reduction, exactly as the script computes it. -/
def RSAmathsCypher : Nat := RSAmathsMessage ^ 17 % (97 * 233)

/-- Witness oracle drawing the value 2 in every Miller-Rabin round
(2 is a legal draw, `2 = 2 + randBelow(n-4)` with `randBelow` yielding
0; every tested number below has `kRounds = 5` or returns before
drawing). -/
def wit2 : Nat → List Nat := fun _ => [2, 2, 2, 2, 2]

/-- Witness oracle drawing 190 in every round: 190 is a strong liar
for the composite 65541 = 3 * 7 * 3121, and a legal draw
(2 ≤ 190 ≤ 65541 - 2). -/
def wliar : Nat → List Nat := fun _ => [190, 190, 190, 190, 190]

/-- OS random bytes encoding 2359333 (prime, ≡ 1 mod 3 and mod 65537),
the starting candidate of the first prime search in the
`keyGen_returns_none_d` run. -/
def rp0 : List Nat := [36, 0, 37]

/-- OS random bytes encoding 786469 (prime, ≡ 1 mod 65539), the
starting candidate of the second prime search in that same run. -/
def rq0 : List Nat := [12, 0, 37]

theorem powModGo_eq (f : Nat) : ∀ a b n : Nat, b < 2 ^ f → powModGo f a b n = a ^ b % n := by
  induction f with
  | zero =>
    intro a b n hb
    interval_cases b
    simp [powModGo]
  | succ f ih =>
    intro a b n hb
    rw [powModGo]
    by_cases h0 : b = 0
    · simp [h0]
    · simp only [h0, if_false]
      have hb2 : b / 2 < 2 ^ f := by
        have := Nat.pow_succ 2 f
        omega
      rw [ih (a * a % n) (b / 2) n hb2]
      have hsq : (a * a % n) ^ (b / 2) % n = a ^ (2 * (b / 2)) % n := by
        rw [← Nat.pow_mod, two_mul, pow_add, mul_pow]
      rcases Nat.mod_two_eq_zero_or_one b with hpar | hpar
      · rw [if_neg (by omega), hsq]
        have hb' : 2 * (b / 2) = b := by omega
        rw [hb']
      · rw [if_pos hpar, hsq]
        have hb' : b = 2 * (b / 2) + 1 := by omega
        conv_rhs => rw [hb']
        rw [pow_add, pow_one, Nat.mul_mod (a ^ (2 * (b / 2))) a n]

/-- powMod computes exactly `a ^ b % n`, the mathematical meaning of
Python's `pow(a, b, n)`. -/
theorem powMod_eq (a b n : Nat) : powMod a b n = a ^ b % n :=
  powModGo_eq b a b n (Nat.lt_two_pow b)

theorem b64chr_spec : ∀ v, v < 64 → b64idx (b64chr v) = v ∧ b64chr v ≠ '=' := by decide

theorem b64_roundtrip : ∀ bs : List Nat, (∀ b ∈ bs, b < 256) → b64d (b64e bs) = bs := by
  intro bs
  induction bs using b64e.induct with
  | case1 =>
    intro
    rfl
  | case2 a =>
    intro h
    have ha : a < 256 := h a (by simp)
    have h1 := b64chr_spec (a / 4) (by omega)
    have h2 := b64chr_spec (a % 4 * 16) (by omega)
    simp [b64e, b64d, h1.1, h2.1]
    omega
  | case3 a b =>
    intro h
    have ha : a < 256 := h a (by simp)
    have hb : b < 256 := h b (by simp)
    have h1 := b64chr_spec (a / 4) (by omega)
    have h2 := b64chr_spec (a % 4 * 16 + b / 16) (by omega)
    have h3 := b64chr_spec (b % 16 * 4) (by omega)
    simp [b64e, b64d, h1.1, h2.1, h3.1, h3.2]
    omega
  | case4 a b c t ih =>
    intro h
    have ha : a < 256 := h a (by simp)
    have hb : b < 256 := h b (by simp)
    have hc : c < 256 := h c (by simp)
    have h1 := b64chr_spec (a / 4) (by omega)
    have h2 := b64chr_spec (a % 4 * 16 + b / 16) (by omega)
    have h3 := b64chr_spec (b % 16 * 4 + c / 64) (by omega)
    have h4 := b64chr_spec (c % 64) (by omega)
    have iht : b64d (b64e t) = t := ih fun x hx => h x (by simp [hx])
    simp [b64e, b64d, h1.1, h2.1, h3.1, h3.2, h4.1, h4.2, iht]
    omega

theorem toBytesGo_mem_lt : ∀ k n b, b ∈ toBytesGo k n → b < 256 := by
  intro k
  induction k with
  | zero =>
    intro n b hb
    simp [toBytesGo] at hb
  | succ k ih =>
    intro n b hb
    simp only [toBytesGo, List.mem_append, List.mem_singleton] at hb
    rcases hb with hb | hb
    · exact ih _ _ hb
    · omega

theorem fromBytesBE_append_one (xs : List Nat) (r : Nat) :
    fromBytesBE (xs ++ [r]) = fromBytesBE xs * 256 + r := by
  unfold fromBytesBE
  rw [List.foldl_append]
  rfl

theorem from_to_bytes : ∀ k n, n < 256 ^ k → fromBytesBE (toBytesGo k n) = n := by
  intro k
  induction k with
  | zero =>
    intro n hn
    interval_cases n
    rfl
  | succ k ih =>
    intro n hn
    have hdiv : n / 256 < 256 ^ k := by
      rw [Nat.div_lt_iff_lt_mul (by norm_num)]
      calc n < 256 ^ (k + 1) := hn
        _ = 256 ^ k * 256 := by rw [pow_succ]
    simp only [toBytesGo]
    rw [fromBytesBE_append_one, ih _ hdiv]
    omega

theorem hexDigitsGo_bound : ∀ f n, n ≤ f → n < 16 ^ hexDigitsGo f n := by
  intro f
  induction f with
  | zero =>
    intro n hn
    interval_cases n
    simp [hexDigitsGo]
  | succ f ih =>
    intro n hn
    rw [hexDigitsGo]
    by_cases h16 : n < 16
    · rw [if_pos h16]
      simpa using h16
    · rw [if_neg h16]
      have hr : n / 16 ≤ f := by omega
      have h2 := ih (n / 16) hr
      calc n < 16 * (n / 16 + 1) := by omega
        _ ≤ 16 * 16 ^ hexDigitsGo f (n / 16) := Nat.mul_le_mul_left 16 h2
        _ = 16 ^ (hexDigitsGo f (n / 16) + 1) := by rw [pow_succ, Nat.mul_comm]

theorem bytLen_ok (n : Nat) : n < 256 ^ bytLen n := by
  have h1 : n < 16 ^ hexDigits n := hexDigitsGo_bound n n le_rfl
  have h2 : hexDigits n ≤ 2 * bytLen n := by
    unfold bytLen
    omega
  calc n < 16 ^ hexDigits n := h1
    _ ≤ 16 ^ (2 * bytLen n) := Nat.pow_le_pow_right (by norm_num) h2
    _ = 256 ^ bytLen n := by
      rw [pow_mul]
      norm_num

theorem foldl_bytes_lt : ∀ (bs : List Nat) (acc : Nat), (∀ b ∈ bs, b < 256) →
    bs.foldl (fun a b => a * 256 + b) acc < (acc + 1) * 256 ^ bs.length := by
  intro bs
  induction bs with
  | nil =>
    intro acc _
    simp
  | cons b t ih =>
    intro acc h
    have hb : b < 256 := h b (by simp)
    have ht := ih (acc * 256 + b) (fun x hx => h x (by simp [hx]))
    simp only [List.foldl_cons, List.length_cons]
    calc t.foldl (fun a b => a * 256 + b) (acc * 256 + b)
        < (acc * 256 + b + 1) * 256 ^ t.length := ht
      _ ≤ ((acc + 1) * 256) * 256 ^ t.length := by
          have hle : acc * 256 + b + 1 ≤ (acc + 1) * 256 := by omega
          exact Nat.mul_le_mul_right _ hle
      _ = (acc + 1) * 256 ^ (t.length + 1) := by ring

theorem fromBytesBE_lt (bs : List Nat) (h : ∀ b ∈ bs, b < 256) :
    fromBytesBE bs < 256 ^ bs.length := by
  have hf := foldl_bytes_lt bs 0 h
  simpa [fromBytesBE] using hf

theorem lor_lt_pow {x y n : Nat} (hx : x < 2 ^ n) (hy : y < 2 ^ n) : x ||| y < 2 ^ n :=
  Nat.bitwise_lt hx hy

theorem lor_one_odd (x : Nat) : (x ||| 1) % 2 = 1 := by
  have h : (x ||| 1).testBit 0 = true := by
    rw [Nat.testBit_lor]
    simp [Nat.testBit_zero]
  rw [Nat.testBit_zero] at h
  exact of_decide_eq_true h

/-- C10: for every non-negative integer `x`, the base64 text framing
round-trips: `B642bigInt (bigInt2B64 x) = x`.  In particular `bytLen`
always allocates enough bytes for the big-endian encoding (the
`to_bytes` call never raises `OverflowError`), and decoding the base64
text recovers exactly the original integer. -/
theorem b64_bigInt_roundtrip : ∀ x : Nat, (bigInt2B64 x).map B642bigInt = some x := by
  intro x
  unfold bigInt2B64 bigInt2Bytes
  rw [if_pos (bytLen_ok x)]
  simp only [Option.map_some']
  unfold B642bigInt
  rw [b64_roundtrip _ (fun b hb => toBytesGo_mem_lt _ _ b hb),
    from_to_bytes _ _ (bytLen_ok x)]

theorem eeaGo_fst : ∀ fuel a b cd0 cd1, b < fuel → (eeaGo fuel a b cd0 cd1).1 = Nat.gcd a b := by
  intro fuel
  induction fuel with
  | zero =>
    intro a b cd0 cd1 hb
    exact absurd hb (Nat.not_lt_zero b)
  | succ f ih =>
    intro a b cd0 cd1 hb
    simp only [eeaGo]
    by_cases hb0 : b = 0
    · rw [if_pos hb0, hb0]
      simp
    · rw [if_neg hb0]
      have hlt : a % b < f := by
        have := Nat.mod_lt a (y := b) (by omega)
        omega
      rw [ih b (a % b) _ _ hlt]
      rw [Nat.gcd_comm b (a % b), ← Nat.gcd_rec b a, Nat.gcd_comm b a]

theorem eeaGo_inv (E U : Nat) : ∀ (fuel a b : Nat) (cd0 cd1 : Int × Int), b < fuel →
    cd0.1 * E + cd0.2 * U = (a : Int) → cd1.1 * E + cd1.2 * U = (b : Int) →
    (eeaGo fuel a b cd0 cd1).2.1 * E + (eeaGo fuel a b cd0 cd1).2.2 * U
      = ((eeaGo fuel a b cd0 cd1).1 : Int) := by
  intro fuel
  induction fuel with
  | zero =>
    intro a b cd0 cd1 hb h0 h1
    exact absurd hb (Nat.not_lt_zero b)
  | succ f ih =>
    intro a b cd0 cd1 hb h0 h1
    simp only [eeaGo]
    by_cases hb0 : b = 0
    · rw [if_pos hb0]
      exact h0
    · rw [if_neg hb0]
      apply ih
      · have := Nat.mod_lt a (y := b) (by omega)
        omega
      · exact h1
      · have hdm : ((b : Int)) * ((a / b : Nat) : Int) + ((a % b : Nat) : Int) = (a : Int) := by
          exact_mod_cast Nat.div_add_mod a b
        simp only []
        linear_combination h0 - ((a / b : Nat) : Int) * h1 - hdm

theorem eea_gcd_ne_one {a m : Nat} (h : Nat.gcd a m ≠ 1) : eea a m = none := by
  simp only [eea]
  rw [eeaGo_fst (m + 1) a m _ _ (Nat.lt_succ_self m)]
  rw [if_pos h]

theorem eea_coprime {a m : Nat} (hm : 1 < m) (h : Nat.gcd a m = 1) :
    ∃ x : Int, eea a m = some x ∧ 0 ≤ x ∧ x < (m : Int) ∧ (a * x.toNat) % m = 1 := by
  have hmne : ((m : Int)) ≠ 0 := by
    have : (1 : Int) < (m : Int) := by exact_mod_cast hm
    omega
  have hmpos : (0 : Int) < (m : Int) := by
    have : (1 : Int) < (m : Int) := by exact_mod_cast hm
    omega
  have hfst := eeaGo_fst (m + 1) a m (1, 0) (0, 1) (Nat.lt_succ_self m)
  have hinv := eeaGo_inv a m (m + 1) a m (1, 0) (0, 1) (Nat.lt_succ_self m)
    (by norm_num) (by norm_num)
  rw [hfst, h] at hinv
  set r := eeaGo (m + 1) a m (1, 0) (0, 1) with hr
  have hnn : 0 ≤ r.2.1 % (m : Int) := Int.emod_nonneg _ hmne
  have hx : ((a : Int) * (r.2.1 % (m : Int))) % (m : Int) = 1 := by
    have h1 : ((a : Int) * r.2.1) % (m : Int) = 1 % (m : Int) := by
      have he : (a : Int) * r.2.1 = 1 + (m : Int) * (-r.2.2) := by
        push_cast at hinv
        linarith [hinv]
      rw [he, Int.add_mul_emod_self_left]
    calc ((a : Int) * (r.2.1 % (m : Int))) % (m : Int)
        = ((a : Int) % (m : Int) * (r.2.1 % (m : Int) % (m : Int))) % (m : Int) := by
          rw [← Int.mul_emod]
      _ = ((a : Int) % (m : Int) * (r.2.1 % (m : Int))) % (m : Int) := by
          rw [Int.emod_emod_of_dvd _ (dvd_refl _)]
      _ = ((a : Int) * r.2.1) % (m : Int) := by rw [← Int.mul_emod]
      _ = 1 % (m : Int) := h1
      _ = 1 := Int.emod_eq_of_lt (by norm_num) (by exact_mod_cast hm)
  refine ⟨r.2.1 % (m : Int), ?_, hnn, Int.emod_lt_of_pos _ hmpos, ?_⟩
  · simp only [eea]
    rw [hfst, h]
    simp
  · have hgoal : (((a * (r.2.1 % (m : Int)).toNat) % m : Nat) : Int) = ((1 : Nat) : Int) := by
      push_cast [Int.toNat_of_nonneg hnn]
      exact hx
    exact_mod_cast hgoal

/-- C2: for every pair `(a, modulus)` with `modulus > 1`: if
`gcd(a, modulus) = 1` then `eea a modulus` returns `some x` with
`0 ≤ x < modulus` and `(a * x) % modulus = 1`; if the gcd is not 1 it
returns `none` rather than any integer. -/
theorem eea_modInverse_correct (a m : Nat) (hm : 1 < m) :
    (Nat.gcd a m = 1 →
      ∃ x : Int, eea a m = some x ∧ 0 ≤ x ∧ x < (m : Int) ∧ (a * x.toNat) % m = 1) ∧
    (Nat.gcd a m ≠ 1 → eea a m = none) :=
  ⟨fun h => eea_coprime hm h, fun h => eea_gcd_ne_one h⟩

/-- Witness for `eea_modInverse_correct` at the concrete coprime pair
`(17, 45936)` from the end-to-end scenario (the returned inverse is
21617) and at the non-coprime pair `(4, 8)`. -/
theorem eea_modInverse_correct_witness :
    (∃ x : Int, eea 17 45936 = some x ∧ 0 ≤ x ∧ x < (45936 : Int) ∧
      (17 * x.toNat) % 45936 = 1) ∧ eea 4 8 = none :=
  ⟨(eea_modInverse_correct 17 45936 (by norm_num)).1 (by decide),
   (eea_modInverse_correct 4 8 (by norm_num)).2 (by decide)⟩

theorem isPrime_true_two_le {n : Nat} {ws : List Nat} (h : IsPrime n ws = true) : 2 ≤ n := by
  unfold IsPrime at h
  by_cases h3 : n ≤ 3
  · rw [if_pos h3] at h
    have := of_decide_eq_true h
    omega
  · omega

theorem primeSearch_some {wss : Nat → List Nat} :
    ∀ {fuel c r : Nat}, primeSearch wss fuel c = some r →
      IsPrime r (wss r) = true ∧ (c % 2 = 1 → r % 2 = 1) := by
  intro fuel
  induction fuel with
  | zero =>
    intro c r h
    simp [primeSearch] at h
  | succ f ih =>
    intro c r h
    rw [primeSearch] at h
    by_cases hp : IsPrime c (wss c) = true
    · rw [if_pos hp] at h
      obtain rfl : c = r := by injection h
      exact ⟨hp, fun hc => hc⟩
    · rw [if_neg hp] at h
      have := ih h
      exact ⟨this.1, fun hc => this.2 (by omega)⟩

theorem getBigPrime_some {nBits : Nat} {rnd : List Nat} {wss : Nat → List Nat} {fuel p : Nat}
    (h : getBigPrime nBits rnd wss fuel = some p) : 3 ≤ p ∧ p % 2 = 1 := by
  unfold getBigPrime at h
  have hs := primeSearch_some h
  have hodd : p % 2 = 1 := hs.2 (lor_one_odd _)
  have h2 := isPrime_true_two_le hs.1
  omega

theorem eLoop_some {u : Nat} {wse : Nat → List Nat} :
    ∀ {fuel e0 e : Nat}, eLoop u wse fuel e0 = some e →
      u % e ≠ 0 ∧ IsPrime e (wse e) = true := by
  intro fuel
  induction fuel with
  | zero =>
    intro e0 e h
    simp [eLoop] at h
  | succ f ih =>
    intro e0 e h
    rw [eLoop] at h
    by_cases hc : (u % e0 == 0 || !(IsPrime e0 (wse e0))) = true
    · rw [if_pos hc] at h
      exact ih h
    · rw [if_neg hc] at h
      obtain rfl : e0 = e := by injection h
      simp only [Bool.or_eq_true, beq_iff_eq, Bool.not_eq_true', not_or,
        Bool.not_eq_false] at hc
      exact hc

theorem keyGen_extract {ks p q n e : Nat} {dO : Option Int} {rp rq : List Nat}
    {wsp wsq wse : Nat → List Nat} {fp fq fe : Nat}
    (hgp : getBigPrime (KEY_SIZE / 2 + 1) rp wsp fp = some p)
    (hgq : getBigPrime (KEY_SIZE / 2 - 1) rq wsq fq = some q)
    (hk : keyGen ks rp rq wsp wsq wse fp fq fe = some (n, e, dO)) :
    n = p * q ∧ dO = eea e ((p - 1) * (q - 1)) ∧
      (p - 1) * (q - 1) % e ≠ 0 ∧ IsPrime e (wse e) = true := by
  simp only [keyGen, hgp, hgq, keyGenTail] at hk
  rcases heL : eLoop ((p - 1) * (q - 1)) wse fe 65537 with _ | e1
  · simp only [heL] at hk
    exact absurd hk (by simp)
  · simp only [heL, Option.some.injEq, Prod.mk.injEq] at hk
    obtain ⟨hn, he1, hd⟩ := hk
    subst hn
    subst he1
    have hel := eLoop_some heL
    exact ⟨rfl, hd.symm, hel.1, hel.2⟩

theorem pow_cycle_prime {p : Nat} (hp : p.Prime) (c m : Nat) :
    m ^ (c * (p - 1) + 1) ≡ m [MOD p] := by
  haveI : Fact p.Prime := ⟨hp⟩
  have h2 : ((m ^ (c * (p - 1) + 1) : Nat) : ZMod p) = (m : ZMod p) := by
    push_cast
    by_cases hm : (m : ZMod p) = 0
    · rw [hm, zero_pow (by omega)]
    · rw [pow_add, pow_one, mul_comm c (p - 1), pow_mul,
        ZMod.pow_card_sub_one_eq_one hm, one_pow, one_mul]
  exact (ZMod.natCast_eq_natCast_iff _ _ _).mp h2

theorem rsa_core {p q e d : Nat} (hp : p.Prime) (hq : q.Prime) (hpq : p ≠ q)
    (hed : e * d % ((p - 1) * (q - 1)) = 1) :
    ∀ m, m < p * q → m ^ (e * d) % (p * q) = m := by
  intro m hm
  set a := p - 1 with ha
  set b := q - 1 with hb
  have h1 := Nat.div_add_mod (e * d) (a * b)
  rw [hed] at h1
  set t := e * d / (a * b) with htdef
  have hexp1 : e * d = t * b * a + 1 := by
    rw [← h1]
    ring
  have hexp2 : e * d = t * a * b + 1 := by
    rw [← h1]
    ring
  have hmodp : m ^ (e * d) ≡ m [MOD p] := by
    rw [hexp1, ha]
    exact pow_cycle_prime hp (t * b) m
  have hmodq : m ^ (e * d) ≡ m [MOD q] := by
    rw [hexp2, hb]
    exact pow_cycle_prime hq (t * a) m
  have hco : Nat.Coprime p q := (Nat.coprime_primes hp hq).mpr hpq
  have hmod : m ^ (e * d) ≡ m [MOD p * q] :=
    (Nat.modEq_and_modEq_iff_modEq_mul hco).mp ⟨hmodp, hmodq⟩
  calc m ^ (e * d) % (p * q) = m % (p * q) := hmod
    _ = m := Nat.mod_eq_of_lt hm

/-- C1 (amended): for every key pair `(n, e, d)` produced by `keyGen`
whose two prime draws `p`, `q` are distinct genuine primes and whose
found public exponent `e` is a genuine prime (`IsPrime` is
probabilistic, so these are hypotheses rather than facts), and every
message `m` with `0 ≤ m < n`, the modular-exponentiation transform
round-trips in both orders: `pow(pow(m, d, n), e, n) = m` and
`pow(pow(m, e, n), d, n) = m`.  When the two prime searches return the
same prime the law fails (see
`roundtrip_keyGen_fails_when_primes_collide`). -/
theorem roundtrip_keyGen
    {ks p q n e : Nat} {dO : Option Int} {rp rq : List Nat}
    {wsp wsq wse : Nat → List Nat} {fp fq fe : Nat}
    (hgp : getBigPrime (KEY_SIZE / 2 + 1) rp wsp fp = some p)
    (hgq : getBigPrime (KEY_SIZE / 2 - 1) rq wsq fq = some q)
    (hk : keyGen ks rp rq wsp wsq wse fp fq fe = some (n, e, dO))
    (hp : Nat.Prime p) (hq : Nat.Prime q) (hpq : p ≠ q) (he : Nat.Prime e)
    (m : Nat) (hm : m < n) :
    ∃ d : Int, dO = some d ∧ 0 ≤ d ∧
      powMod (powMod m d.toNat n) e n = m ∧ powMod (powMod m e n) d.toNat n = m := by
  obtain ⟨hn, hdO, hmod, _⟩ := keyGen_extract hgp hgq hk
  have hp3 : 3 ≤ p := (getBigPrime_some hgp).1
  have hq3 : 3 ≤ q := (getBigPrime_some hgq).1
  have hu1 : 1 < (p - 1) * (q - 1) := by
    have h2 : 2 ≤ p - 1 := by omega
    have h3 : 2 ≤ q - 1 := by omega
    calc 1 < 2 * 2 := by norm_num
      _ ≤ (p - 1) * (q - 1) := Nat.mul_le_mul h2 h3
  have hco : Nat.gcd e ((p - 1) * (q - 1)) = 1 := by
    have hnd : ¬ e ∣ (p - 1) * (q - 1) := by
      intro hdvd
      exact hmod (Nat.dvd_iff_mod_eq_zero.mp hdvd)
    exact (Nat.Prime.coprime_iff_not_dvd he).mpr hnd
  obtain ⟨x, hxeq, hx0, _, hxinv⟩ := eea_coprime hu1 hco
  refine ⟨x, by rw [hdO, hxeq], hx0, ?_, ?_⟩
  · rw [powMod_eq, powMod_eq, ← Nat.pow_mod, ← pow_mul]
    subst hn
    exact rsa_core hp hq hpq (by rw [Nat.mul_comm]; exact hxinv) m hm
  · rw [powMod_eq, powMod_eq, ← Nat.pow_mod, ← pow_mul]
    subst hn
    exact rsa_core hp hq hpq hxinv m hm

/-- Witness for `roundtrip_keyGen`: a complete concrete run.  The
random draws `[2]` and `[4]` make the prime searches start at 3 and 5
(both prime, 3 ≠ 5); the `e` search accepts the prime 65537, whose
inverse modulo `u = 8` is `d = 1`; the round trip holds at `m = 2`. -/
theorem roundtrip_keyGen_witness :
    getBigPrime (KEY_SIZE / 2 + 1) [2] wit2 1 = some 3 ∧
    getBigPrime (KEY_SIZE / 2 - 1) [4] wit2 1 = some 5 ∧
    keyGen 1024 [2] [4] wit2 wit2 wit2 1 1 1 = some (15, 65537, some 1) ∧
    ∃ d : Int, (some (1 : Int) : Option Int) = some d ∧ 0 ≤ d ∧
      powMod (powMod 2 d.toNat 15) 65537 15 = 2 ∧
      powMod (powMod 2 65537 15) d.toNat 15 = 2 :=
  ⟨by decide, by decide, by decide,
   @roundtrip_keyGen 1024 3 5 15 65537 (some 1) [2] [4] wit2 wit2 wit2 1 1 1
     (by decide) (by decide) (by decide) (by norm_num) (by norm_num)
     (by norm_num) (by norm_num) 2 (by norm_num)⟩

/-- C1 counterexample: both prime searches of `keyGen` can find the
same prime — with random byte draws `[2]` both start at `2 ||| 1 = 3`
and return 3 — and then `keyGen` still produces the key triple
`(n, e, d) = (9, 65537, 1)`, for which the claimed round-trip law
fails at the message `m = 3 < 9`:
`pow(pow(3, d, 9), e, 9) = 0 ≠ 3`. -/
theorem roundtrip_keyGen_fails_when_primes_collide :
    getBigPrime (KEY_SIZE / 2 + 1) [2] wit2 1 = some 3 ∧
    getBigPrime (KEY_SIZE / 2 - 1) [2] wit2 1 = some 3 ∧
    keyGen 1024 [2] [2] wit2 wit2 wit2 1 1 1 = some (9, 65537, some 1) ∧
    powMod (powMod 3 (1 : Int).toNat 9) 65537 9 ≠ 3 := by
  refine ⟨by decide, by decide, by decide, by decide⟩

/-- C3 (amended): every triple `(n, e, d)` produced by `keyGen` from
the two primes `p`, `q` it found — when the found public exponent `e`
is a genuine prime (`IsPrime` is probabilistic) — satisfies
`n = p * q`, `gcd(e, (p-1)*(q-1)) = 1`, and
`(d * e) mod ((p-1)*(q-1)) = 1` with `d` an integer, not the none
signal.  The claim's remaining conjunct `p ≠ q` is not an invariant of
the code: see `keyGen_equal_primes_reachable`. -/
theorem keyGen_invariants
    {ks p q n e : Nat} {dO : Option Int} {rp rq : List Nat}
    {wsp wsq wse : Nat → List Nat} {fp fq fe : Nat}
    (hgp : getBigPrime (KEY_SIZE / 2 + 1) rp wsp fp = some p)
    (hgq : getBigPrime (KEY_SIZE / 2 - 1) rq wsq fq = some q)
    (hk : keyGen ks rp rq wsp wsq wse fp fq fe = some (n, e, dO))
    (_hp : Nat.Prime p) (_hq : Nat.Prime q) (he : Nat.Prime e) :
    n = p * q ∧ Nat.gcd e ((p - 1) * (q - 1)) = 1 ∧
      ∃ d : Int, dO = some d ∧ 0 ≤ d ∧ d.toNat * e % ((p - 1) * (q - 1)) = 1 := by
  obtain ⟨hn, hdO, hmod, _⟩ := keyGen_extract hgp hgq hk
  have hp3 : 3 ≤ p := (getBigPrime_some hgp).1
  have hq3 : 3 ≤ q := (getBigPrime_some hgq).1
  have hu1 : 1 < (p - 1) * (q - 1) := by
    have h2 : 2 ≤ p - 1 := by omega
    have h3 : 2 ≤ q - 1 := by omega
    calc 1 < 2 * 2 := by norm_num
      _ ≤ (p - 1) * (q - 1) := Nat.mul_le_mul h2 h3
  have hco : Nat.gcd e ((p - 1) * (q - 1)) = 1 := by
    have hnd : ¬ e ∣ (p - 1) * (q - 1) := by
      intro hdvd
      exact hmod (Nat.dvd_iff_mod_eq_zero.mp hdvd)
    exact (Nat.Prime.coprime_iff_not_dvd he).mpr hnd
  obtain ⟨x, hxeq, hx0, _, hxinv⟩ := eea_coprime hu1 hco
  refine ⟨hn, hco, x, by rw [hdO, hxeq], hx0, ?_⟩
  rw [Nat.mul_comm]
  exact hxinv

/-- Witness for `keyGen_invariants`: the concrete run with prime draws
3 and 5 (`u = 8`, `e = 65537`, `d = 1`). -/
theorem keyGen_invariants_witness :
    15 = 3 * 5 ∧ Nat.gcd 65537 ((3 - 1) * (5 - 1)) = 1 ∧
      ∃ d : Int, (some (1 : Int) : Option Int) = some d ∧ 0 ≤ d ∧
        d.toNat * 65537 % ((3 - 1) * (5 - 1)) = 1 :=
  @keyGen_invariants 1024 3 5 15 65537 (some 1) [2] [4] wit2 wit2 wit2 1 1 1
    (by decide) (by decide) (by decide) (by norm_num) (by norm_num) (by norm_num)

/-- C3 counterexample: the two prime searches of `keyGen` can find the
same prime.  With the byte draw `[2]` on both streams each search
starts at `2 ||| 1 = 3` and returns 3, and `keyGen` still produces a
key triple — so `p ≠ q` fails for this run. -/
theorem keyGen_equal_primes_reachable :
    getBigPrime (KEY_SIZE / 2 + 1) [2] wit2 1 = some 3 ∧
    getBigPrime (KEY_SIZE / 2 - 1) [2] wit2 1 = some 3 ∧
    keyGen 1024 [2] [2] wit2 wit2 wit2 1 1 1 = some (9, 65537, some 1) :=
  ⟨by decide, by decide, by decide⟩

/-- C6 (amended): `keyGen` contains no retry around the modular
inverse: it returns `d = eea e u` as-is — `None` included, per its own
docstring "On error retun d = None (couldn't find a solution,
re-try)".  When the found `e` is genuinely prime the none branch is
unreachable, since `e` prime with `u % e ≠ 0` forces `gcd(e, u) = 1`
and `eea` returns an integer; but the branch is reachable through a
Miller-Rabin false positive, see `keyGen_returns_none_d`. -/
theorem keyGen_d_not_none_of_e_prime
    {ks p q n e : Nat} {dO : Option Int} {rp rq : List Nat}
    {wsp wsq wse : Nat → List Nat} {fp fq fe : Nat}
    (hgp : getBigPrime (KEY_SIZE / 2 + 1) rp wsp fp = some p)
    (hgq : getBigPrime (KEY_SIZE / 2 - 1) rq wsq fq = some q)
    (hk : keyGen ks rp rq wsp wsq wse fp fq fe = some (n, e, dO))
    (he : Nat.Prime e) :
    ∃ d : Int, dO = some d := by
  obtain ⟨_, hdO, hmod, _⟩ := keyGen_extract hgp hgq hk
  have hp3 : 3 ≤ p := (getBigPrime_some hgp).1
  have hq3 : 3 ≤ q := (getBigPrime_some hgq).1
  have hu1 : 1 < (p - 1) * (q - 1) := by
    have h2 : 2 ≤ p - 1 := by omega
    have h3 : 2 ≤ q - 1 := by omega
    calc 1 < 2 * 2 := by norm_num
      _ ≤ (p - 1) * (q - 1) := Nat.mul_le_mul h2 h3
  have hco : Nat.gcd e ((p - 1) * (q - 1)) = 1 := by
    have hnd : ¬ e ∣ (p - 1) * (q - 1) := by
      intro hdvd
      exact hmod (Nat.dvd_iff_mod_eq_zero.mp hdvd)
    exact (Nat.Prime.coprime_iff_not_dvd he).mpr hnd
  obtain ⟨x, hxeq, _, _, _⟩ := eea_coprime hu1 hco
  exact ⟨x, by rw [hdO, hxeq]⟩

/-- Witness for `keyGen_d_not_none_of_e_prime` at the 3/5 run. -/
theorem keyGen_d_not_none_of_e_prime_witness :
    ∃ d : Int, (some (1 : Int) : Option Int) = some d :=
  @keyGen_d_not_none_of_e_prime 1024 3 5 15 65537 (some 1) [2] [4] wit2 wit2 wit2 1 1 1
    (by decide) (by decide) (by decide) (by norm_num)

/-- C6 counterexample: `keyGen` can return a key pair whose private
exponent is the none signal, and it performs no retry.  With the prime
draws 2359333 and 786469 the totient
`u = 2359332 * 786468` is divisible by both 65537 and 65539, so the
`e` search moves on to `65541 = 3 * 7 * 3121`, a composite that the
lying witness 190 makes `IsPrime` accept (five rounds, all drawing
190, each a legal draw in `[2, 65539]`); since `3` divides both 65541
and `u` while `u % 65541 = 3456 ≠ 0`, the loop stops there,
`eea 65541 u` finds gcd 3 ≠ 1 and returns `None`, and `keyGen` returns
the triple `(2359333 * 786469, 65541, None)`. -/
theorem keyGen_returns_none_d :
    keyGen 1024 rp0 rq0 wit2 wit2 wliar 1 1 3
      = some (2359333 * 786469, 65541, none) ∧
    IsPrime 65541 (wliar 65541) = true ∧ 65541 = 3 * 7 * 3121 :=
  ⟨by decide, by decide, by norm_num⟩

/-- C4: `keyGen` does not use its `keySize` argument at all — the
prime bit-length targets on RSA.py lines 153-154 are computed from the
module-level global `KEY_SIZE = 1024`, so every call behaves like
`keyGen(1024)`.  In particular the call `keyGen(2048)` in main
(line 199) targets `KEY_SIZE/2 + 1 = 513` and `KEY_SIZE/2 - 1 = 511`
bit draws, not the `2048/2 + 1 = 1025` and `1023` the claim
requires. -/
theorem keyGen_ignores_keySize_argument :
    (∀ (ks : Nat) (rp rq : List Nat) (wsp wsq wse : Nat → List Nat) (fp fq fe : Nat),
      keyGen ks rp rq wsp wsq wse fp fq fe = keyGen 1024 rp rq wsp wsq wse fp fq fe) ∧
    KEY_SIZE / 2 + 1 = 513 ∧ KEY_SIZE / 2 - 1 = 511 ∧
    (2048 / 2 + 1 = 1025 ∧ (513 : Nat) ≠ 1025) :=
  ⟨fun _ _ _ _ _ _ _ _ _ => rfl, rfl, rfl, rfl, by norm_num⟩

/-- C5 counterexample: the spec's end-to-end scenario value `d = 8105`
is wrong.  `eea 17 45936` computes 21617, and 8105 fails the check the
scenario itself states: `(17 * 8105) mod 45936 = 45913 ≠ 1`. -/
theorem endToEnd_d8105_wrong :
    eea 17 45936 = some 21617 ∧ (17 * 8105) % 45936 = 45913 ∧ (17 * 8105) % 45936 ≠ 1 :=
  ⟨by decide, by decide, by decide⟩

/-- C5 (amended): the end-to-end scenario with the correct inverse
`d = 21617`: `eea 17 45936 = some 21617`, `(17 * 21617) mod 45936 = 1`,
and `pow(pow(6789, 17, 46367), 21617, 46367) = 6789`; decrypting with
the claimed 8105 instead does not recover the message. -/
theorem endToEnd_scenario_d21617 :
    eea 17 45936 = some 21617 ∧ (17 * 21617) % 45936 = 1 ∧
    powMod (powMod 6789 17 46367) 21617 46367 = 6789 ∧
    powMod (powMod 6789 17 46367) 8105 46367 ≠ 6789 :=
  ⟨by decide, by decide, by decide, by decide⟩

/-- C7 counterexample: `getBigPrime` draws `nBits // 8` random bytes
and forces only the bottom bit; the top bit is not set and the bit
length is not guaranteed.  With `nBits = 8` and the random byte 0 the
starting candidate is `0 ||| 1 = 1`, whose bit length is 1, not 8, and
whose top bit `2^7` is not set. -/
theorem getBigPrimeStart_not_full_bitLength :
    getBigPrimeStart 8 [0] = 1 ∧ bitLen (getBigPrimeStart 8 [0]) = 1 ∧
    ¬ 2 ^ (8 - 1) ≤ getBigPrimeStart 8 [0] :=
  ⟨by decide, by decide, by decide⟩

/-- C7 (amended): the starting candidate of `getBigPrime nBits` is
`int.from_bytes(randBytes(nBits // 8), 'big') | 1`: it is always odd
(the bottom bit is forced to 1), and it is below `2 ^ (8 * (nBits/8))`
— for the bit counts `keyGen` actually passes (513 and 511, both
indivisible by 8) that is strictly fewer than `nBits` bits, and the
top bit is never forced, so the candidate does not have exactly
`nBits` bits. -/
theorem getBigPrimeStart_odd_and_bounded (nBits : Nat) (rnd : List Nat)
    (h8 : 8 ≤ nBits) (hb : ∀ b ∈ rnd, b < 256) :
    getBigPrimeStart nBits rnd % 2 = 1 ∧
    getBigPrimeStart nBits rnd < 2 ^ (8 * (nBits / 8)) := by
  refine ⟨lor_one_odd _, ?_⟩
  unfold getBigPrimeStart
  apply lor_lt_pow
  · have hlen : (rnd.take (nBits / 8)).length ≤ nBits / 8 := by
      simp [List.length_take]
    have hfb := fromBytesBE_lt (rnd.take (nBits / 8))
      (fun b hbm => hb b (List.take_subset _ _ hbm))
    calc fromBytesBE (rnd.take (nBits / 8))
        < 256 ^ (rnd.take (nBits / 8)).length := hfb
      _ ≤ 256 ^ (nBits / 8) := Nat.pow_le_pow_right (by norm_num) hlen
      _ = 2 ^ (8 * (nBits / 8)) := by
          rw [pow_mul]
          norm_num
  · calc (1 : Nat) < 2 ^ 8 := by norm_num
      _ ≤ 2 ^ (8 * (nBits / 8)) := Nat.pow_le_pow_right (by norm_num) (by omega)

/-- Witness for `getBigPrimeStart_odd_and_bounded` at `nBits = 513`
(the length `keyGen` uses) on a 64-byte all-255 draw. -/
theorem getBigPrimeStart_odd_and_bounded_witness :
    getBigPrimeStart 513 (List.replicate 64 255) % 2 = 1 ∧
    getBigPrimeStart 513 (List.replicate 64 255) < 2 ^ (8 * (513 / 8)) :=
  getBigPrimeStart_odd_and_bounded 513 (List.replicate 64 255) (by norm_num) (by decide)

theorem isPrime_false_of_no_liar {n : Nat} (hodd : n % 2 = 1) (h4 : 3 < n)
    (hfail : ∀ a, a < n - 1 → 2 ≤ a → millerTest a (oddPart (n - 1)) n = false) :
    ∀ ws : List Nat, ws.length = kRounds n → (∀ a ∈ ws, 2 ≤ a ∧ a < n - 1) →
      IsPrime n ws = false := by
  intro ws hlen hbnd
  unfold IsPrime
  rw [if_neg (by omega), if_neg (by omega)]
  have hk4 : 4 ≤ kRounds n := by
    unfold kRounds
    exact le_min (by omega) (by norm_num)
  rcases ws with _ | ⟨a, t⟩
  · simp at hlen
    omega
  · have hba := hbnd a (by simp)
    have hmf := hfail a hba.2 hba.1
    have hsucc : kRounds n = (kRounds n - 1) + 1 := by omega
    rw [hsucc, List.take_succ_cons, List.all_cons, hmf]
    simp

theorem isPrime_true_of_all_pass {n : Nat} (hodd : n % 2 = 1) (h4 : 3 < n)
    (hpass : ∀ a, a < n - 1 → 2 ≤ a → millerTest a (oddPart (n - 1)) n = true) :
    ∀ ws : List Nat, (∀ a ∈ ws, 2 ≤ a ∧ a < n - 1) → IsPrime n ws = true := by
  intro ws hbnd
  unfold IsPrime
  rw [if_neg (by omega), if_neg (by omega)]
  rw [List.all_eq_true]
  intro a ha
  have hm := hbnd a (List.take_subset _ _ ha)
  exact hpass a hm.2 hm.1

/-- C8 (amended): Miller-Rabin composite detection is exact once a
round fails, and for the small odd composites 9, 15, 21, 27, 33, 35
(and trivially the even 4, 6, 8) every legal witness draw fails a
round, so `IsPrime` is deterministically false on them; for the small
primes 2, 3, 5, 7, 11, 13 every witness sequence passes, so `IsPrime`
is true with round count `kRounds n ≥ 1`.  Determinism does NOT extend
to every small composite: strong liars exist (see
`isPrime_composite_65_passes`). -/
theorem isPrime_small_cases :
    (∀ n ∈ [4, 6, 8, 9, 15, 21, 27, 33, 35], ∀ ws : List Nat,
      ws.length = kRounds n → (∀ a ∈ ws, 2 ≤ a ∧ a < n - 1) → IsPrime n ws = false) ∧
    (∀ n ∈ [2, 3, 5, 7, 11, 13], 1 ≤ kRounds n ∧
      ∀ ws : List Nat, (∀ a ∈ ws, 2 ≤ a ∧ a < n - 1) → IsPrime n ws = true) := by
  constructor
  · intro n hn
    fin_cases hn
    · intro ws _ _
      simp [IsPrime]
    · intro ws _ _
      simp [IsPrime]
    · intro ws _ _
      simp [IsPrime]
    · exact isPrime_false_of_no_liar (by norm_num) (by norm_num) (by decide)
    · exact isPrime_false_of_no_liar (by norm_num) (by norm_num) (by decide)
    · exact isPrime_false_of_no_liar (by norm_num) (by norm_num) (by decide)
    · exact isPrime_false_of_no_liar (by norm_num) (by norm_num) (by decide)
    · exact isPrime_false_of_no_liar (by norm_num) (by norm_num) (by decide)
    · exact isPrime_false_of_no_liar (by norm_num) (by norm_num) (by decide)
  · intro n hn
    fin_cases hn
    · exact ⟨by decide, fun ws _ => by simp [IsPrime]⟩
    · exact ⟨by decide, fun ws _ => by simp [IsPrime]⟩
    · exact ⟨by decide, isPrime_true_of_all_pass (by norm_num) (by norm_num) (by decide)⟩
    · exact ⟨by decide, isPrime_true_of_all_pass (by norm_num) (by norm_num) (by decide)⟩
    · exact ⟨by decide, isPrime_true_of_all_pass (by norm_num) (by norm_num) (by decide)⟩
    · exact ⟨by decide, isPrime_true_of_all_pass (by norm_num) (by norm_num) (by decide)⟩

/-- Witness for `isPrime_small_cases`: the composite 9 is rejected on
the witness list `[2, 2, 2, 2]` (length `kRounds 9 = 4`, all draws
legal) and the prime 7 is accepted on the same draws, with
`kRounds 7 ≥ 1`. -/
theorem isPrime_small_cases_witness :
    IsPrime 9 [2, 2, 2, 2] = false ∧ IsPrime 7 [2, 2, 2, 2] = true ∧ 1 ≤ kRounds 7 :=
  ⟨isPrime_small_cases.1 9 (by simp) [2, 2, 2, 2] (by decide) (by decide),
   (isPrime_small_cases.2 7 (by simp)).2 [2, 2, 2, 2] (by decide),
   (isPrime_small_cases.2 7 (by simp)).1⟩

/-- C8 counterexample: `IsPrime` is not deterministically false on
every known small composite.  `65 = 5 * 13` is composite, yet the
witness sequence `[8, 8, 8, 8]` — exactly `kRounds 65 = 4` draws, each
the legal value 8 in `[2, 63]`, and 8 is a strong liar for 65 — makes
every round pass, so `IsPrime 65` returns true. -/
theorem isPrime_composite_65_passes :
    IsPrime 65 [8, 8, 8, 8] = true ∧ 65 = 5 * 13 ∧
    List.length [8, 8, 8, 8] = kRounds 65 ∧ ∀ a ∈ [8, 8, 8, 8], 2 ≤ a ∧ a < 65 - 1 :=
  ⟨by decide, by norm_num, by decide, by decide⟩

/-- C9: with `p = 97`, `q = 233`, `e = 17` and the message
`m = 233 * 5 = 1165` (a multiple of `q`), the transform
`m ** 17 % (97 * 233)` equals `m` exactly — no visible encryption —
so the `assert cypher == message` in the RSAmaths.py footnote holds
and the degenerate behaviour is reproduced bit-for-bit. -/
theorem rsamaths_cypher_equals_message : RSAmathsCypher = RSAmathsMessage := by decide
